import Mathlib

/-!
# Shallow embedding of `initial_visualization.py` (FlyWireInitialScrape)

The script loads two pandas tables (a classification table with columns
`root_id`, `class`, and a connection table with columns `pre_root_id`,
`post_root_id`, `syn_count`, `nt_type`), filters nodes by class, builds a
dictionary from each selected node to three parallel lists of outgoing
edges, persists that dictionary as JSON, and later reloads it to build
dense adjacency matrices with numpy.

Modelling choices, stated once here:
* pandas DataFrames become Lean lists of row structures, preserving row
  order; `df.iterrows()` becomes a fold over the list.
* Python `dict` becomes an association list preserving insertion order
  (first insertion fixes the position of a key, later assignment updates
  the value in place), exactly Python's ordering guarantee.
* After a JSON round trip dictionary keys are strings while freshly built
  dictionaries have integer keys.  Key lookup in `connectivity_matrix`
  compares `str(downstream)` against the keys with Python `==`, which is
  `False` across types; `PyKey` with decidable equality models this.
* numpy 2D float arrays of integral synapse counts become
  `List (List Int)`; the final division by the maximum is modelled over
  `ℚ` extended with IEEE-style `nan`/`inf` values (`PyFloat`), since the
  only non-finite value the script can produce is `0.0 / 0.0 = nan` and
  `x / 0.0 = ±inf`.  Exact rational division stands in for rounded float
  division.
* `json.dump`/`json.load` are modelled structurally through a JSON value
  tree (`Json`); the file system path is carried as the first component
  of the `save_data` result and otherwise ignored.
* The tqdm progress bar is observability only and is not modelled.
* Out-of-range indexing that cannot occur on the data the script builds
  (e.g. `value["strength"][j]` when the parallel-list invariant is
  broken) is modelled with a default value; every theorem that depends
  on such an access carries the parallel-list hypothesis `mapWF`.
-/

/-- A row of `classification.csv`: columns `root_id` and `class`. -/
structure NodeRow where
  root_id : Int
  «class» : String
deriving DecidableEq

/-- A row of `connections.csv`: columns `pre_root_id`, `post_root_id`,
`syn_count`, `nt_type`. -/
structure EdgeRow where
  pre_root_id : Int
  post_root_id : Int
  syn_count : Int
  nt_type : String
deriving DecidableEq

/-- The value stored for one neuron in the connectivity dictionary: the
three parallel lists built by `Data.neuron_connections`. -/
structure ConnEntry where
  downstream : List Int
  strength : List Int
  connection_type : List String
deriving DecidableEq

/-- The entry every key starts from: three empty lists. -/
def emptyEntry : ConnEntry := ⟨[], [], []⟩

/-- `Data.olfactory_neruons` (sic): scans the classification table and
collects `root_id` of every row whose `class` column equals `_class`,
in row order. -/
def olfactory_neruons (classification_df : List NodeRow) (_class : String) : List Int :=
  classification_df.foldl
    (fun list_neurons row =>
      if row.«class» == _class then list_neurons ++ [row.root_id] else list_neurons)
    []

/-- Python `dict` assignment `m[k] = v` on an insertion-ordered
association list: update in place when the key exists, append otherwise. -/
def dictInsert (m : List (Int × ConnEntry)) (k : Int) (v : ConnEntry) :
    List (Int × ConnEntry) :=
  if m.any (fun p => p.1 == k) then
    m.map (fun p => if p.1 == k then (p.1, v) else p)
  else
    m ++ [(k, v)]

/-- Python `dict` lookup `m[k]` (as an `Option`): value of the first pair
whose key equals `k`. -/
def dictGet (m : List (Int × ConnEntry)) (k : Int) : Option ConnEntry :=
  (m.find? (fun p => p.1 == k)).map Prod.snd

/-- One edge row appended to a `ConnEntry`: the three `append` calls in
the body of the edge loop of `Data.neuron_connections`. -/
def pushEdge (row : EdgeRow) (v : ConnEntry) : ConnEntry :=
  ⟨v.downstream ++ [row.post_root_id],
   v.strength ++ [row.syn_count],
   v.connection_type ++ [row.nt_type]⟩

/-- In-place mutation `neuron_connection[pre_root_id][...].append(...)`:
the entry stored under `row.pre_root_id` gets the edge appended, all
other entries are untouched. -/
def appendEdge (m : List (Int × ConnEntry)) (row : EdgeRow) :
    List (Int × ConnEntry) :=
  m.map (fun p => if p.1 == row.pre_root_id then (p.1, pushEdge row p.2) else p)

/-- A JSON value, the structural model of what `json.dump` writes and
`json.load` reads back. -/
inductive Json where
  | num (n : Int)
  | str (s : String)
  | arr (elems : List Json)
  | obj (fields : List (String × Json))

/-- JSON encoding of one connectivity entry: an object with the three
array fields, in the order the script builds them. -/
def encodeEntry (v : ConnEntry) : Json :=
  Json.obj
    [("downstream", Json.arr (v.downstream.map Json.num)),
     ("strength", Json.arr (v.strength.map Json.num)),
     ("connection_type", Json.arr (v.connection_type.map Json.str))]

/-- `Data.save_data`: `json.dump` writes the dictionary as a JSON object
whose keys are `str(k)`; the target file is `name + ".json"`.  The result
is the (file name, file content) pair. -/
def save_data (data : List (Int × ConnEntry)) (name : String) : String × Json :=
  (name ++ (".json"), Json.obj (data.map (fun p => (toString p.1, encodeEntry p.2))))

/-- Decoding of a list of JSON numbers, as `json.load` reproduces the
elements of the `downstream`/`strength` arrays. -/
def decodeNums : List Json → Option (List Int)
  | [] => some []
  | Json.num n :: rest => (decodeNums rest).map (fun l => n :: l)
  | _ => none

/-- Decoding of a JSON array of numbers. -/
def decodeIntList : Json → Option (List Int)
  | Json.arr elems => decodeNums elems
  | _ => none

/-- Decoding of a list of JSON strings, as `json.load` reproduces the
elements of the `connection_type` array. -/
def decodeStrs : List Json → Option (List String)
  | [] => some []
  | Json.str s :: rest => (decodeStrs rest).map (fun l => s :: l)
  | _ => none

/-- Decoding of a JSON array of strings. -/
def decodeStrList : Json → Option (List String)
  | Json.arr elems => decodeStrs elems
  | _ => none

/-- Decoding of one connectivity entry from the object `json.dump`
produced for it. -/
def decodeEntry : Json → Option ConnEntry
  | Json.obj [(k1, d), (k2, s), (k3, t)] =>
      if k1 = "downstream" ∧ k2 = "strength" ∧ k3 = "connection_type" then
        match decodeIntList d, decodeIntList s, decodeStrList t with
        | some ds, some ss, some ts => some ⟨ds, ss, ts⟩
        | _, _, _ => none
      else none
  | _ => none

/-- Decoding of the fields of the top-level JSON object, keeping key
order. -/
def decodeFields : List (String × Json) → Option (List (String × ConnEntry))
  | [] => some []
  | p :: rest =>
      match decodeEntry p.2 with
      | none => none
      | some v => (decodeFields rest).map (fun l => (p.1, v) :: l)

/-- `Data.load_json`: `json.load` on the file content gives back a
dictionary with string keys; entries keep their three parallel lists. -/
def load_json (j : Json) : Option (List (String × ConnEntry)) :=
  match j with
  | Json.obj fields => decodeFields fields
  | _ => none

/-- Python truthiness of a string argument (`if save:`): any non-empty
string is truthy, the empty string is falsy. -/
def pyTruthy (s : String) : Bool := s ≠ ""

/-- `Data.neuron_connections`: initializes an entry with three empty
lists for every id in `list_neurons`, then scans every row of the
connection table, appending target / weight / type to the source's entry
whenever `pre_root_id` is in `list_neurons`.  If `save` is truthy the
dictionary is written via `save_data` to `name + ".json"`; the second
component records that write (`none` when skipped). -/
def neuron_connections (connection_df : List EdgeRow) (list_neurons : List Int)
    (save : String) (name : String) :
    List (Int × ConnEntry) × Option (String × Json) :=
  let init := list_neurons.foldl (fun m neuron => dictInsert m neuron emptyEntry) []
  let neuron_connection := connection_df.foldl
    (fun m row => if row.pre_root_id ∈ list_neurons then appendEdge m row else m)
    init
  (neuron_connection,
   if pyTruthy save then some (save_data neuron_connection name) else none)

/-- The three parallel lists that `neuron_connections` records for key
`k`: the `post_root_id`s, `syn_count`s and `nt_type`s of the connection
rows whose `pre_root_id` is `k`, in row order. -/
def sourceEntry (connection_df : List EdgeRow) (k : Int) : ConnEntry :=
  ⟨(connection_df.filter (fun row => row.pre_root_id == k)).map EdgeRow.post_root_id,
   (connection_df.filter (fun row => row.pre_root_id == k)).map EdgeRow.syn_count,
   (connection_df.filter (fun row => row.pre_root_id == k)).map EdgeRow.nt_type⟩

/-- Componentwise concatenation of two entries (used to state how the
edge loop extends the initial empty entries). -/
def catEntry (a b : ConnEntry) : ConnEntry :=
  ⟨a.downstream ++ b.downstream,
   a.strength ++ b.strength,
   a.connection_type ++ b.connection_type⟩

/-- The class of the first classification row whose `root_id` equals
`root`: models `classification_df.iloc[np.where(classification_df["root_id"]
== downstream)[0]]["class"].iloc[0]`, which raises when no row matches
(`none` here). -/
def first_class (classification_df : List NodeRow) (root : Int) : Option String :=
  (classification_df.find? (fun row => row.root_id == root)).map NodeRow.«class»

/-- One Python dictionary key: integer keys in freshly built
dictionaries, string keys after a JSON round trip.  Python `==` across
the two types is `False`. -/
inductive PyKey where
  | int (n : Int)
  | str (s : String)
deriving DecidableEq

/-- `str(downstream)` for an integer downstream id, as a `PyKey`. -/
def strKey (n : Int) : PyKey := PyKey.str (toString n)

/-- A connectivity dictionary as `GraphData.connectivity_matrix` and
`Data.list_down_stream_regions` consume it. -/
abbrev ConnMap : Type := List (PyKey × ConnEntry)

/-- The parallel-list invariant of one entry: `downstream` and
`strength` have the same length. -/
def entryWF (v : ConnEntry) : Prop :=
  v.downstream.length = v.strength.length

/-- The parallel-list invariant of a whole dictionary. -/
def mapWF (m : ConnMap) : Prop :=
  ∀ kv ∈ m, entryWF kv.2

/-- Python `x in keys` for a `PyKey` against a key list. -/
def pyContains (ks : List PyKey) (k : PyKey) : Bool :=
  ks.any (fun x => decide (x = k))

/-- Python `keys.index(x)`: position of the first occurrence (the script
only calls it after a successful membership test). -/
def pyIndexOf (ks : List PyKey) (k : PyKey) : Nat :=
  ks.findIdx (fun x => decide (x = k))

/-- `np.zeros((m, n))` over integral weights. -/
def zeros (m n : Nat) : List (List Int) :=
  List.replicate m (List.replicate n 0)

/-- numpy cell read `M[i][j]` (out-of-range reads, which numpy would
reject, return 0; every theorem stays in range). -/
def getCell (M : List (List Int)) (i j : Nat) : Int :=
  (M.getD i []).getD j 0

/-- numpy cell assignment `M[i][j] = v`. -/
def setCell (M : List (List Int)) (i j : Nat) (v : Int) : List (List Int) :=
  M.set i ((M.getD i []).set j v)

/-- The inner loop of `GraphData.connectivity_matrix` for one upstream
entry: walks `downstream` and `strength` in lockstep (the Python loop
indexes `value["strength"][j]` with the position `j` of the enumerate;
when `strength` is shorter, Python would raise, here the default 0 is
read — ruled out by `mapWF` in the theorems).  For each target whose
string form is among the downstream keys the cell in row `i` at that
key's first position is overwritten with the weight. -/
def stepEdges (ks : List PyKey) (i : Nat) :
    List Int → List Int → List (List Int) → List (List Int)
  | [], _, M => M
  | d :: ds, ss, M =>
      let M' := if pyContains ks (strKey d) then
          setCell M i (pyIndexOf ks (strKey d)) (ss.headD 0)
        else M
      stepEdges ks i ds ss.tail M'

/-- The outer loop of `GraphData.connectivity_matrix`:
`for i, (key, value) in enumerate(...)`, running `stepEdges` on each
entry with its row index. -/
def fillMatrix (ks : List PyKey) : Nat → ConnMap → List (List Int) → List (List Int)
  | _, [], M => M
  | i, kv :: rest, M =>
      fillMatrix ks (i + 1) rest (stepEdges ks i kv.2.downstream kv.2.strength M)

/-- `GraphData.connectivity_matrix`: raises `ValueError` unless exactly
two dictionaries are given; otherwise fills an
`len(upstream) × len(downstream)` zero matrix from the upstream entries.
`upstream_axis` selects which of the two is upstream (the script passes
0 or 1). -/
def connectivity_matrix (data_frames : List ConnMap) (upstream_axis : Nat) :
    Except String (List (List Int)) :=
  if data_frames.length ≠ 2 then
    Except.error ("data_frames must contain 2 entries. You put " ++
      toString data_frames.length)
  else
    let list_loc2_neurons := (data_frames.getD (1 - upstream_axis) []).map Prod.fst
    let up := data_frames.getD upstream_axis []
    Except.ok (fillMatrix list_loc2_neurons 0 up
      (zeros up.length (data_frames.getD (1 - upstream_axis) []).length))

/-- The weights of the edges of one upstream entry that land in column
`j`: target's string form is among the keys and its first position is
`j`.  The cell ends up holding the last element (or 0 when empty). -/
def qualStrengths (ks : List PyKey) (ds ss : List Int) (j : Nat) : List Int :=
  ((ds.zip ss).filter
      (fun p => pyContains ks (strKey p.1) && (pyIndexOf ks (strKey p.1) == j))).map
    Prod.snd

/-- An IEEE-style float value as far as this script can produce one:
a finite rational, `±inf`, or `nan`. -/
inductive PyFloat where
  | val (q : ℚ)
  | pinf
  | ninf
  | nan
deriving DecidableEq

/-- Float division of finite values: exact rational quotient when the
divisor is nonzero, `nan` for `0/0`, signed infinity otherwise. -/
def pyDiv (a b : ℚ) : PyFloat :=
  if b ≠ 0 then PyFloat.val (a / b)
  else if a = 0 then PyFloat.nan
  else if 0 < a then PyFloat.pinf
  else PyFloat.ninf

/-- `connect_matrix.max()`: global maximum cell value (numpy raises on
an empty array; the 0 default is never reached by a theorem about a
nonempty matrix). -/
def matMax (M : List (List Int)) : Int :=
  match M.flatten with
  | [] => 0
  | x :: xs => xs.foldl max x

/-- The normalization step `connect_matrix = connect_matrix /
connect_matrix.max()` of `visualize_single_area` and
`connectivity_matrix_multiple_areas`. -/
def normalize_matrix (M : List (List Int)) : List (List PyFloat) :=
  M.map (fun row => row.map (fun x : Int => pyDiv (x : ℚ) ((matMax M : Int) : ℚ)))

/-- Inner loop of `Data.list_down_stream_regions` over one entry's
`downstream` list: look up each id's class by first matching row,
append unseen classes to the accumulator, fail (`IndexError` in Python)
when no row matches. -/
def collectRegions (classification_df : List NodeRow) :
    List Int → List String → Except String (List String)
  | [], downstream_regions => Except.ok downstream_regions
  | d :: ds, downstream_regions =>
      match first_class classification_df d with
      | none => Except.error ("IndexError: single positional indexer is out-of-bounds")
      | some c =>
          collectRegions classification_df ds
            (if c ∈ downstream_regions then downstream_regions
             else downstream_regions ++ [c])

/-- Outer loop of `Data.list_down_stream_regions` over the dictionary
entries. -/
def regionsOfEntries (classification_df : List NodeRow) :
    ConnMap → List String → Except String (List String)
  | [], downstream_regions => Except.ok downstream_regions
  | kv :: rest, downstream_regions =>
      match collectRegions classification_df kv.2.downstream downstream_regions with
      | Except.error e => Except.error e
      | Except.ok acc => regionsOfEntries classification_df rest acc

/-- `Data.list_down_stream_regions`: walks every entry of the loaded
dictionary and collects the distinct classes of all downstream ids, in
first-seen order. -/
def list_down_stream_regions (data : ConnMap) (classification_df : List NodeRow) :
    Except String (List String) :=
  regionsOfEntries classification_df data []

/-- All downstream ids referenced anywhere in a dictionary, in
iteration order. -/
def allDownstream (data : ConnMap) : List Int :=
  (data.map (fun kv => kv.2.downstream)).flatten

/-- Fold of the `if _class in downstream_regions: pass else: append`
accumulation over a list of classes, starting from `acc`. -/
def foldInsert (acc : List String) (cs : List String) : List String :=
  cs.foldl (fun a c => if c ∈ a then a else a ++ [c]) acc

/-! ## Helper lemmas -/

theorem foldl_append_filter (c : String) (l : List NodeRow) (acc : List Int) :
    l.foldl
        (fun a r => if r.«class» == c then a ++ [r.root_id] else a) acc =
      acc ++ (l.filter (fun r => r.«class» == c)).map NodeRow.root_id := by
  induction l generalizing acc with
  | nil => simp
  | cons r l ih =>
      by_cases h : r.«class» = c
      · rw [List.foldl_cons, if_pos (show (r.«class» == c) = true by simp [h]), ih]
        simp [List.filter_cons, h]
      · rw [List.foldl_cons, if_neg (show ¬(r.«class» == c) = true by simp [h]), ih]
        simp [List.filter_cons, h]

theorem decodeNums_map (l : List Int) :
    decodeNums (l.map Json.num) = some l := by
  induction l with
  | nil => rfl
  | cons x l ih => simp [decodeNums, ih]

theorem decodeStrs_map (l : List String) :
    decodeStrs (l.map Json.str) = some l := by
  induction l with
  | nil => rfl
  | cons x l ih => simp [decodeStrs, ih]

theorem decodeEntry_encodeEntry (v : ConnEntry) :
    decodeEntry (encodeEntry v) = some v := by
  cases v
  simp [encodeEntry, decodeEntry, decodeIntList, decodeStrList,
    decodeNums_map, decodeStrs_map]

theorem decodeFields_encode (m : List (Int × ConnEntry)) :
    decodeFields (m.map (fun p => (toString p.1, encodeEntry p.2))) =
      some (m.map (fun p => (toString p.1, p.2))) := by
  induction m with
  | nil => rfl
  | cons p m ih => simp [decodeFields, decodeEntry_encodeEntry, ih]

theorem dictGet_nil (k : Int) : dictGet [] k = none := rfl

theorem dictGet_cons (p : Int × ConnEntry) (m : List (Int × ConnEntry)) (k : Int) :
    dictGet (p :: m) k = if p.1 = k then some p.2 else dictGet m k := by
  by_cases h : p.1 = k
  · simp [dictGet, List.find?_cons, h]
  · simp [dictGet, List.find?_cons,
      show (p.1 == k) = false by simpa using h, h]

theorem dictGet_map_update_mem (m : List (Int × ConnEntry)) (k : Int)
    (v : ConnEntry) (h : ∃ p ∈ m, p.1 = k) :
    dictGet (m.map (fun p => if p.1 == k then (p.1, v) else p)) k = some v := by
  induction m with
  | nil => simp at h
  | cons p m ih =>
      rw [List.map_cons]
      by_cases hp : p.1 = k
      · rw [if_pos (by simpa using hp)]
        simp [dictGet_cons, hp]
      · rw [if_neg (by simpa using hp)]
        have h' : ∃ q ∈ m, q.1 = k := by
          rcases h with ⟨q, hq, hqk⟩
          rcases List.mem_cons.mp hq with rfl | hq'
          · exact absurd hqk hp
          · exact ⟨q, hq', hqk⟩
        simp only [dictGet_cons, if_neg hp]
        simpa using ih h' 

theorem dictGet_map_update_ne (m : List (Int × ConnEntry)) (k : Int)
    (v : ConnEntry) (k' : Int) (h : ¬ k' = k) :
    dictGet (m.map (fun p => if p.1 == k then (p.1, v) else p)) k' = dictGet m k' := by
  induction m with
  | nil => rfl
  | cons p m ih =>
      rw [List.map_cons]
      by_cases hp : p.1 = k
      · rw [if_pos (by simpa using hp)]
        by_cases hk : p.1 = k'
        · exact absurd (hk.symm.trans hp) h
        · simp only [dictGet_cons, if_neg hk]
          simpa using ih
      · rw [if_neg (by simpa using hp)]
        by_cases hk : p.1 = k'
        · simp [dictGet_cons, hk]
        · simp only [dictGet_cons, if_neg hk]
          simpa using ih

theorem dictGet_map_update_none (m : List (Int × ConnEntry)) (k : Int)
    (v : ConnEntry) (h : ∀ p ∈ m, ¬ p.1 = k) :
    dictGet (m.map (fun p => if p.1 == k then (p.1, v) else p)) k = none := by
  induction m with
  | nil => rfl
  | cons p m ih =>
      have hp : ¬ p.1 = k := h p (List.mem_cons_self p m)
      rw [List.map_cons, if_neg (by simpa using hp)]
      simp only [dictGet_cons, if_neg hp]
      simpa using ih (fun q hq => h q (List.mem_cons_of_mem p hq))

theorem dictGet_append_single (m : List (Int × ConnEntry)) (k : Int) (v : ConnEntry)
    (k' : Int) (hnone : ∀ p ∈ m, ¬ p.1 = k) :
    dictGet (m ++ [(k, v)]) k' =
      if k' = k then some v else dictGet m k' := by
  induction m with
  | nil =>
      rw [List.nil_append]
      by_cases h : k' = k
      · simp [dictGet_cons, h]
      · simp [dictGet_cons, h, show ¬ k = k' from fun hh => h hh.symm, dictGet]
  | cons p m ih =>
      rw [List.cons_append]
      by_cases hk : p.1 = k'
      · have hkk : ¬ k' = k := fun hh =>
          hnone p (List.mem_cons_self p m) (hk.trans hh)
        simp [dictGet_cons, hk, hkk]
      · simp [dictGet_cons, hk,
          ih (fun q hq => hnone q (List.mem_cons_of_mem p hq))]

theorem dictGet_dictInsert (m : List (Int × ConnEntry)) (k : Int) (v : ConnEntry)
    (k' : Int) :
    dictGet (dictInsert m k v) k' = if k' = k then some v else dictGet m k' := by
  by_cases hmem : (m.any (fun p => p.1 == k)) = true
  · have hex : ∃ p ∈ m, p.1 = k := by
      rcases List.any_eq_true.mp hmem with ⟨p, hp, hpk⟩
      exact ⟨p, hp, by simpa using hpk⟩
    rw [dictInsert, if_pos hmem]
    by_cases hk : k' = k
    · rw [hk, dictGet_map_update_mem m k v hex, if_pos rfl]
    · rw [dictGet_map_update_ne m k v k' hk, if_neg hk]
  · have hnone : ∀ p ∈ m, ¬ p.1 = k := by
      intro p hp hpk
      exact hmem (List.any_eq_true.mpr ⟨p, hp, by simpa using hpk⟩)
    rw [dictInsert, if_neg hmem, dictGet_append_single m k v k' hnone]

theorem dictGet_foldl_insert (S : List Int) (m : List (Int × ConnEntry)) (k : Int) :
    dictGet (S.foldl (fun m' neuron => dictInsert m' neuron emptyEntry) m) k =
      if k ∈ S then some emptyEntry else dictGet m k := by
  induction S generalizing m with
  | nil => simp
  | cons n S ih =>
      rw [List.foldl_cons, ih]
      by_cases hS : k ∈ S
      · simp [hS]
      · by_cases hn : k = n <;> simp [hS, hn, dictGet_dictInsert]

theorem dictGet_appendEdge (m : List (Int × ConnEntry)) (row : EdgeRow) (k : Int) :
    dictGet (appendEdge m row) k =
      if k = row.pre_root_id then (dictGet m k).map (pushEdge row)
      else dictGet m k := by
  induction m with
  | nil => by_cases h : k = row.pre_root_id <;> simp [appendEdge, dictGet, h]
  | cons p m ih =>
      rw [appendEdge, List.map_cons]
      rw [appendEdge] at ih
      by_cases hp : p.1 = row.pre_root_id
      · rw [if_pos (by simpa using hp)]
        by_cases hk : p.1 = k
        · have hkr : k = row.pre_root_id := hk.symm.trans hp
          simp [dictGet_cons, hk, hkr]
        · simp only [dictGet_cons, if_neg hk]
          simpa using ih
      · rw [if_neg (by simpa using hp)]
        by_cases hk : p.1 = k
        · have hkr : ¬ k = row.pre_root_id := fun hh => hp (hk.trans hh)
          simp [dictGet_cons, hk, hkr]
        · simp only [dictGet_cons, if_neg hk]
          simpa using ih

theorem isSome_dictGet_appendEdge (m : List (Int × ConnEntry)) (row : EdgeRow)
    (k : Int) :
    (dictGet (appendEdge m row) k).isSome = (dictGet m k).isSome := by
  rw [dictGet_appendEdge]
  by_cases h : k = row.pre_root_id
  · rw [if_pos h]; cases dictGet m k <;> simp
  · rw [if_neg h]

theorem catEntry_emptyEntry_left (v : ConnEntry) : catEntry emptyEntry v = v := by
  cases v; simp [catEntry, emptyEntry]

theorem catEntry_emptyEntry_right (v : ConnEntry) : catEntry v emptyEntry = v := by
  cases v; simp [catEntry, emptyEntry]

theorem sourceEntry_nil (k : Int) : sourceEntry [] k = emptyEntry := rfl

theorem sourceEntry_cons_of_pos (row : EdgeRow) (E : List EdgeRow) (k : Int)
    (h : row.pre_root_id = k) :
    sourceEntry (row :: E) k =
      ⟨row.post_root_id :: (sourceEntry E k).downstream,
       row.syn_count :: (sourceEntry E k).strength,
       row.nt_type :: (sourceEntry E k).connection_type⟩ := by
  simp [sourceEntry, List.filter_cons, h]

theorem sourceEntry_cons_of_neg (row : EdgeRow) (E : List EdgeRow) (k : Int)
    (h : ¬ row.pre_root_id = k) :
    sourceEntry (row :: E) k = sourceEntry E k := by
  simp [sourceEntry, List.filter_cons, show (row.pre_root_id == k) = false by simpa using h]

theorem catEntry_pushEdge (row : EdgeRow) (v w : ConnEntry) :
    catEntry (pushEdge row v) w =
      catEntry v
        ⟨row.post_root_id :: w.downstream,
         row.syn_count :: w.strength,
         row.nt_type :: w.connection_type⟩ := by
  cases v; cases w; simp [catEntry, pushEdge]

theorem dictGet_edge_foldl (E : List EdgeRow) (S : List Int)
    (m : List (Int × ConnEntry)) (k : Int)
    (hkeys : ∀ k', (dictGet m k').isSome = true ↔ k' ∈ S) :
    dictGet
        (E.foldl (fun m' row => if row.pre_root_id ∈ S then appendEdge m' row else m') m)
        k =
      (dictGet m k).map (fun v => catEntry v (sourceEntry E k)) := by
  induction E generalizing m with
  | nil =>
      rw [sourceEntry_nil, List.foldl_nil]
      cases dictGet m k <;> simp [catEntry_emptyEntry_right]
  | cons row E ih =>
      rw [List.foldl_cons]
      by_cases hrow : row.pre_root_id ∈ S
      · rw [if_pos hrow]
        have hkeys' : ∀ k', (dictGet (appendEdge m row) k').isSome = true ↔ k' ∈ S := by
          intro k'
          rw [isSome_dictGet_appendEdge]
          exact hkeys k'
        rw [ih (appendEdge m row) hkeys', dictGet_appendEdge]
        by_cases hk : k = row.pre_root_id
        · rw [if_pos hk, sourceEntry_cons_of_pos row E k hk.symm]
          cases dictGet m k <;> simp [catEntry_pushEdge]
        · rw [if_neg hk, sourceEntry_cons_of_neg row E k (fun hh => hk hh.symm)]
      · rw [if_neg hrow, ih m hkeys]
        by_cases hk : k = row.pre_root_id
        · have hnone : dictGet m k = none := by
            cases hget : dictGet m k with
            | none => rfl
            | some v =>
                have : k ∈ S := (hkeys k).mp (by rw [hget]; rfl)
                exact absurd (hk ▸ this) hrow
          rw [hnone]
          rfl
        · rw [sourceEntry_cons_of_neg row E k (fun hh => hk hh.symm)]

theorem getD_set_ne {α : Type} (l : List α) (i j : Nat) (a d : α) (h : ¬ i = j) :
    (l.set i a).getD j d = l.getD j d := by
  induction l generalizing i j with
  | nil => rfl
  | cons x l ih =>
      cases i with
      | zero =>
          cases j with
          | zero => exact absurd rfl h
          | succ j => simp [List.set]
      | succ i =>
          cases j with
          | zero => simp [List.set]
          | succ j =>
              simp only [List.set, List.getD_cons_succ]
              exact ih i j (fun hh => h (by rw [hh]))

theorem getD_set_eq {α : Type} (l : List α) (i : Nat) (a d : α) (h : i < l.length) :
    (l.set i a).getD i d = a := by
  induction l generalizing i with
  | nil => simp at h
  | cons x l ih =>
      cases i with
      | zero => simp [List.set]
      | succ i => simpa [List.set] using ih i (Nat.lt_of_succ_lt_succ h)

theorem set_oob {α : Type} (l : List α) (i : Nat) (a : α) (h : l.length ≤ i) :
    l.set i a = l := by
  induction l generalizing i with
  | nil => rfl
  | cons x l ih =>
      cases i with
      | zero => simp at h
      | succ i => simp [List.set, ih i (Nat.le_of_succ_le_succ h)]

theorem length_setCell (M : List (List Int)) (i j : Nat) (v : Int) :
    (setCell M i j v).length = M.length := by
  simp [setCell]

theorem rowlen_setCell (M : List (List Int)) (i j : Nat) (v : Int) (i' : Nat) :
    ((setCell M i j v).getD i' []).length = (M.getD i' []).length := by
  by_cases h : i = i'
  · subst h
    by_cases hi : i < M.length
    · rw [setCell, getD_set_eq M i _ [] hi]
      simp
    · rw [setCell, set_oob M i _ (Nat.le_of_not_lt hi)]
  · rw [setCell, getD_set_ne M i i' _ [] h]

theorem getCell_setCell_ne_row (M : List (List Int)) (i j : Nat) (v : Int)
    (i' j' : Nat) (h : ¬ i' = i) :
    getCell (setCell M i j v) i' j' = getCell M i' j' := by
  rw [getCell, setCell, getD_set_ne M i i' _ [] (fun hh => h hh.symm), getCell]

theorem getCell_setCell_eq_row (M : List (List Int)) (i j j' : Nat) (v : Int)
    (hi : i < M.length) :
    getCell (setCell M i j v) i j' =
      if j' = j ∧ j < (M.getD i []).length then v else getCell M i j' := by
  rw [getCell, setCell, getD_set_eq M i _ [] hi]
  by_cases hj : j' = j
  · subst hj
    by_cases hlt : j' < (M.getD i []).length
    · rw [getD_set_eq _ j' _ 0 hlt, if_pos ⟨rfl, hlt⟩]
    · rw [set_oob _ j' _ (Nat.le_of_not_lt hlt), if_neg (fun hh => hlt hh.2), getCell]
  · rw [getD_set_ne _ j j' _ 0 (fun hh => hj hh.symm),
      if_neg (fun hh => hj hh.1), getCell]

theorem pyIndexOf_lt_length (ks : List PyKey) (k : PyKey)
    (h : pyContains ks k = true) : pyIndexOf ks k < ks.length := by
  rw [pyContains, List.any_eq_true] at h
  rcases h with ⟨x, hx, hxk⟩
  exact List.findIdx_lt_length_of_exists ⟨x, hx, hxk⟩

theorem length_stepEdges (ks : List PyKey) (i : Nat) (ds : List Int) :
    ∀ (ss : List Int) (M : List (List Int)),
      (stepEdges ks i ds ss M).length = M.length := by
  induction ds with
  | nil => intro ss M; rfl
  | cons d ds ih =>
      intro ss M
      rw [stepEdges]
      by_cases hc : pyContains ks (strKey d) = true
      · rw [if_pos hc, ih, length_setCell]
      · rw [if_neg hc, ih]

theorem rowlen_stepEdges (ks : List PyKey) (i : Nat) (ds : List Int) :
    ∀ (ss : List Int) (M : List (List Int)) (i' : Nat),
      ((stepEdges ks i ds ss M).getD i' []).length = ((M.getD i' []).length) := by
  induction ds with
  | nil => intro ss M i'; rfl
  | cons d ds ih =>
      intro ss M i'
      rw [stepEdges]
      by_cases hc : pyContains ks (strKey d) = true
      · rw [if_pos hc, ih, rowlen_setCell]
      · rw [if_neg hc, ih]

theorem getCell_stepEdges_ne (ks : List PyKey) (i : Nat) (ds : List Int) :
    ∀ (ss : List Int) (M : List (List Int)) (i' j : Nat), ¬ i' = i →
      getCell (stepEdges ks i ds ss M) i' j = getCell M i' j := by
  induction ds with
  | nil => intro ss M i' j _; rfl
  | cons d ds ih =>
      intro ss M i' j h
      rw [stepEdges]
      by_cases hc : pyContains ks (strKey d) = true
      · rw [if_pos hc, ih _ _ _ _ h, getCell_setCell_ne_row _ _ _ _ _ _ h]
      · rw [if_neg hc, ih _ _ _ _ h]

theorem qualStrengths_nil (ks : List PyKey) (ss : List Int) (j : Nat) :
    qualStrengths ks [] ss j = [] := rfl

theorem getCell_stepEdges (ks : List PyKey) (i : Nat) (ds : List Int) :
    ∀ (ss : List Int) (M : List (List Int)) (j : Nat),
      ds.length ≤ ss.length → i < M.length → (M.getD i []).length = ks.length →
      getCell (stepEdges ks i ds ss M) i j =
        (qualStrengths ks ds ss j).getLastD (getCell M i j) := by
  induction ds with
  | nil => intro ss M j _ _ _; rfl
  | cons d ds ih =>
      intro ss M j hdslen hi hrow
      cases ss with
      | nil => simp at hdslen
      | cons s ss =>
          have hlen' : ds.length ≤ ss.length := Nat.le_of_succ_le_succ hdslen
          rw [stepEdges]
          by_cases hc : pyContains ks (strKey d) = true
          · have hidx : pyIndexOf ks (strKey d) < ks.length :=
              pyIndexOf_lt_length ks (strKey d) hc
            by_cases hj : pyIndexOf ks (strKey d) = j
            · rw [if_pos hc]
              have hq : qualStrengths ks (d :: ds) (s :: ss) j =
                  s :: qualStrengths ks ds ss j := by
                simp [qualStrengths, List.filter_cons, hc, hj]
              rw [hq, List.getLastD_cons]
              have hM' := ih ss (setCell M i (pyIndexOf ks (strKey d)) s) j hlen'
                (by rw [length_setCell]; exact hi)
                (by rw [rowlen_setCell]; exact hrow)
              simp only [List.headD_cons, List.tail_cons] at hM' ⊢
              rw [hM', getCell_setCell_eq_row M i _ j s hi, hj,
                if_pos ⟨rfl, by rw [hrow, ← hj]; exact hidx⟩]
            · rw [if_pos hc]
              have hq : qualStrengths ks (d :: ds) (s :: ss) j =
                  qualStrengths ks ds ss j := by
                simp [qualStrengths, List.filter_cons, hc, hj]
              rw [hq]
              have hM' := ih ss (setCell M i (pyIndexOf ks (strKey d)) s) j hlen'
                (by rw [length_setCell]; exact hi)
                (by rw [rowlen_setCell]; exact hrow)
              simp only [List.headD_cons, List.tail_cons] at hM' ⊢
              rw [hM', getCell_setCell_eq_row M i _ j s hi,
                if_neg (fun hh => hj hh.1.symm)]
          · rw [if_neg hc]
            have hq : qualStrengths ks (d :: ds) (s :: ss) j =
                qualStrengths ks ds ss j := by
              simp [qualStrengths, List.filter_cons, hc]
            simp only [List.tail_cons]
            rw [hq, ih ss M j hlen' hi hrow]

theorem length_fillMatrix (ks : List PyKey) (A : ConnMap) :
    ∀ (i0 : Nat) (M : List (List Int)),
      (fillMatrix ks i0 A M).length = M.length := by
  induction A with
  | nil => intro i0 M; rfl
  | cons kv rest ih =>
      intro i0 M
      rw [fillMatrix, ih, length_stepEdges]

theorem rowlen_fillMatrix (ks : List PyKey) (A : ConnMap) :
    ∀ (i0 : Nat) (M : List (List Int)) (i' : Nat),
      ((fillMatrix ks i0 A M).getD i' []).length = (M.getD i' []).length := by
  induction A with
  | nil => intro i0 M i'; rfl
  | cons kv rest ih =>
      intro i0 M i'
      rw [fillMatrix, ih, rowlen_stepEdges]

theorem getCell_fillMatrix_lt (ks : List PyKey) (A : ConnMap) :
    ∀ (i0 : Nat) (M : List (List Int)) (i' j : Nat), i' < i0 →
      getCell (fillMatrix ks i0 A M) i' j = getCell M i' j := by
  induction A with
  | nil => intro i0 M i' j _; rfl
  | cons kv rest ih =>
      intro i0 M i' j h
      rw [fillMatrix, ih (i0 + 1) _ i' j (Nat.lt_succ_of_lt h),
        getCell_stepEdges_ne ks i0 _ _ _ i' j (Nat.ne_of_lt h)]

theorem getCell_fillMatrix (ks : List PyKey) (A : ConnMap) :
    ∀ (i0 : Nat) (M : List (List Int)) (t j : Nat) (ht : t < A.length),
      (∀ kv ∈ A, entryWF kv.2) →
      i0 + t < M.length →
      (∀ i', i' < M.length → (M.getD i' []).length = ks.length) →
      getCell (fillMatrix ks i0 A M) (i0 + t) j =
        (qualStrengths ks ((A.get ⟨t, ht⟩).2.downstream)
            ((A.get ⟨t, ht⟩).2.strength) j).getLastD
          (getCell M (i0 + t) j) := by
  induction A with
  | nil => intro i0 M t j ht; simp at ht
  | cons kv rest ih =>
      intro i0 M t j ht hwf hM hrows
      cases t with
      | zero =>
          rw [fillMatrix]
          have hi0 : i0 < M.length := by simpa using hM
          simp only [Nat.add_zero, List.get_cons_zero]
          rw [getCell_fillMatrix_lt ks rest (i0 + 1) _ i0 j (Nat.lt_succ_self i0)]
          have hwfkv : entryWF kv.2 := hwf kv (List.mem_cons_self kv rest)
          exact getCell_stepEdges ks i0 kv.2.downstream kv.2.strength M j
            (Nat.le_of_eq hwfkv) hi0 (hrows i0 hi0)
      | succ t =>
          rw [fillMatrix]
          have harith : i0 + (t + 1) = (i0 + 1) + t := by omega
          have hM' : (i0 + 1) + t <
              (stepEdges ks i0 kv.2.downstream kv.2.strength M).length := by
            rw [length_stepEdges]; omega
          have hrows' : ∀ i',
              i' < (stepEdges ks i0 kv.2.downstream kv.2.strength M).length →
              (((stepEdges ks i0 kv.2.downstream kv.2.strength M).getD i' []).length =
                ks.length) := by
            intro i' hi'
            rw [rowlen_stepEdges]
            exact hrows i' (by rwa [length_stepEdges] at hi')
          have ih' := ih (i0 + 1) (stepEdges ks i0 kv.2.downstream kv.2.strength M)
            t j (Nat.lt_of_succ_lt_succ ht)
            (fun q hq => hwf q (List.mem_cons_of_mem kv hq)) hM' hrows'
          rw [harith, ih',
            getCell_stepEdges_ne ks i0 kv.2.downstream kv.2.strength M ((i0 + 1) + t) j
              (by omega)]
          rfl

theorem getD_replicate {α : Type} (a d : α) :
    ∀ (m i : Nat), (List.replicate m a).getD i d = if i < m then a else d := by
  intro m
  induction m with
  | zero => intro i; simp
  | succ m ih =>
      intro i
      cases i with
      | zero => simp [List.replicate]
      | succ i =>
          rw [List.replicate, List.getD_cons_succ, ih i]
          by_cases h : i < m
          · rw [if_pos h, if_pos (Nat.succ_lt_succ h)]
          · rw [if_neg h, if_neg (fun hh => h (Nat.lt_of_succ_lt_succ hh))]

theorem getCell_zeros (m n i j : Nat) : getCell (zeros m n) i j = 0 := by
  rw [getCell, zeros, getD_replicate]
  by_cases h : i < m
  · rw [if_pos h, getD_replicate]
    by_cases hj : j < n
    · rw [if_pos hj]
    · rw [if_neg hj]
  · rw [if_neg h]
    rfl

theorem length_zeros (m n : Nat) : (zeros m n).length = m := by
  simp [zeros]

theorem rowlen_zeros (m n i : Nat) (h : i < m) :
    ((zeros m n).getD i []).length = n := by
  rw [zeros, getD_replicate, if_pos h, List.length_replicate]

theorem connectivity_matrix_pair (A B : ConnMap) :
    connectivity_matrix [A, B] 0 =
      Except.ok (fillMatrix (B.map Prod.fst) 0 A (zeros A.length B.length)) := rfl

theorem pyContains_int_keys (ks : List PyKey)
    (h : ∀ k ∈ ks, ∃ n : Int, k = PyKey.int n) (d : Int) :
    pyContains ks (strKey d) = false := by
  rw [pyContains]
  by_contra hc
  rcases List.any_eq_true.mp (Bool.of_not_eq_false hc) with ⟨x, hx, hxd⟩
  rcases h x hx with ⟨n, rfl⟩
  have : PyKey.int n = strKey d := of_decide_eq_true hxd
  simp [strKey] at this

theorem stepEdges_no_hit (ks : List PyKey) (i : Nat) (ds : List Int)
    (h : ∀ d : Int, pyContains ks (strKey d) = false) :
    ∀ (ss : List Int) (M : List (List Int)), stepEdges ks i ds ss M = M := by
  induction ds with
  | nil => intro ss M; rfl
  | cons d ds ih =>
      intro ss M
      rw [stepEdges, if_neg (by rw [h d]; exact fun hh => Bool.false_ne_true hh), ih]

theorem fillMatrix_no_hit (ks : List PyKey)
    (h : ∀ d : Int, pyContains ks (strKey d) = false) (A : ConnMap) :
    ∀ (i0 : Nat) (M : List (List Int)), fillMatrix ks i0 A M = M := by
  induction A with
  | nil => intro i0 M; rfl
  | cons kv rest ih =>
      intro i0 M
      rw [fillMatrix, stepEdges_no_hit ks i0 kv.2.downstream h, ih]

theorem le_foldl_max (l : List Int) : ∀ a : Int, a ≤ l.foldl max a := by
  induction l with
  | nil => intro a; exact le_refl a
  | cons b l ih =>
      intro a
      exact le_trans (le_max_left a b) (ih (max a b))

theorem mem_le_foldl_max (l : List Int) :
    ∀ (a x : Int), x ∈ l → x ≤ l.foldl max a := by
  induction l with
  | nil => intro a x hx; simp at hx
  | cons b l ih =>
      intro a x hx
      rcases List.mem_cons.mp hx with rfl | hx'
      · exact le_trans (le_max_right a x) (le_foldl_max l (max a x))
      · exact ih (max a b) x hx'

theorem foldl_max_mem (l : List Int) :
    ∀ a : Int, l.foldl max a = a ∨ l.foldl max a ∈ l := by
  induction l with
  | nil => intro a; exact Or.inl rfl
  | cons b l ih =>
      intro a
      rcases ih (max a b) with h | h
      · rcases max_choice a b with hm | hm
        · exact Or.inl (by rw [List.foldl_cons, h, hm])
        · exact Or.inr (by rw [List.foldl_cons, h, hm]; exact List.mem_cons_self b l)
      · exact Or.inr (List.mem_cons_of_mem b h)

theorem matMax_mem (M : List (List Int)) (h : ¬ M.flatten = []) :
    matMax M ∈ M.flatten := by
  rw [matMax]
  cases hm : M.flatten with
  | nil => exact absurd hm h
  | cons x xs =>
      show xs.foldl max x ∈ x :: xs
      rcases foldl_max_mem xs x with hx | hx
      · rw [hx]; exact List.mem_cons_self x xs
      · exact List.mem_cons_of_mem x hx

theorem le_matMax (M : List (List Int)) (x : Int) (hx : x ∈ M.flatten) :
    x ≤ matMax M := by
  rw [matMax]
  cases hm : M.flatten with
  | nil => rw [hm] at hx; simp at hx
  | cons y ys =>
      rw [hm] at hx
      show x ≤ ys.foldl max y
      rcases List.mem_cons.mp hx with rfl | hx'
      · exact le_foldl_max ys x
      · exact mem_le_foldl_max ys y x hx'

theorem getLastD_mem (l : List Int) (d : Int) (h : ¬ l = []) : l.getLastD d ∈ l := by
  induction l generalizing d with
  | nil => exact absurd rfl h
  | cons x l ih =>
      rw [List.getLastD_cons]
      cases l with
      | nil => exact List.mem_cons_self x []
      | cons y l => exact List.mem_cons_of_mem x (ih x (by simp))

theorem first_class_isSome (classification_df : List NodeRow) (d : Int)
    (h : ∃ r ∈ classification_df, r.root_id = d) :
    ∃ c, first_class classification_df d = some c := by
  rcases h with ⟨r, hr, hrd⟩
  rw [first_class]
  cases hf : classification_df.find? (fun row => row.root_id == d) with
  | none =>
      have := List.find?_eq_none.mp hf r hr
      simp [hrd] at this
  | some rr => exact ⟨rr.«class», rfl⟩

theorem collectRegions_ok (classification_df : List NodeRow) (ds : List Int) :
    ∀ acc : List String,
      (∀ d ∈ ds, ∃ c, first_class classification_df d = some c) →
      collectRegions classification_df ds acc =
        Except.ok (foldInsert acc (ds.filterMap (first_class classification_df))) := by
  induction ds with
  | nil => intro acc _; rfl
  | cons d ds ih =>
      intro acc h
      rcases h d (List.mem_cons_self d ds) with ⟨c, hc⟩
      rw [collectRegions, hc]
      show collectRegions classification_df ds
          (if c ∈ acc then acc else acc ++ [c]) = _
      rw [ih _ (fun q hq => h q (List.mem_cons_of_mem d hq))]
      simp only [List.filterMap_cons, hc]
      rfl

theorem collectRegions_err (classification_df : List NodeRow) (ds : List Int) :
    ∀ acc : List String,
      (∃ d ∈ ds, first_class classification_df d = none) →
      ∃ msg, collectRegions classification_df ds acc = Except.error msg := by
  induction ds with
  | nil => intro acc h; simp at h
  | cons d ds ih =>
      intro acc h
      cases hd : first_class classification_df d with
      | none => exact ⟨_, by rw [collectRegions, hd]⟩
      | some c =>
          have h' : ∃ q ∈ ds, first_class classification_df q = none := by
            rcases h with ⟨q, hq, hqn⟩
            rcases List.mem_cons.mp hq with rfl | hq'
            · rw [hd] at hqn; exact absurd hqn (by simp)
            · exact ⟨q, hq', hqn⟩
          rcases ih (if c ∈ acc then acc else acc ++ [c]) h' with ⟨msg, hmsg⟩
          refine ⟨msg, ?_⟩
          rw [collectRegions, hd]
          show collectRegions classification_df ds
              (if c ∈ acc then acc else acc ++ [c]) = Except.error msg
          exact hmsg

theorem regionsOfEntries_ok (classification_df : List NodeRow) (data : ConnMap) :
    ∀ acc : List String,
      (∀ d ∈ allDownstream data, ∃ c, first_class classification_df d = some c) →
      regionsOfEntries classification_df data acc =
        Except.ok (foldInsert acc
          ((allDownstream data).filterMap (first_class classification_df))) := by
  induction data with
  | nil => intro acc _; rfl
  | cons kv rest ih =>
      intro acc h
      have hsplit : allDownstream (kv :: rest) =
          kv.2.downstream ++ allDownstream rest := by
        simp [allDownstream]
      rw [hsplit] at h
      have hkv : ∀ d ∈ kv.2.downstream, ∃ c, first_class classification_df d = some c :=
        fun d hd => h d (List.mem_append.mpr (Or.inl hd))
      have hrest : ∀ d ∈ allDownstream rest,
          ∃ c, first_class classification_df d = some c :=
        fun d hd => h d (List.mem_append.mpr (Or.inr hd))
      rw [regionsOfEntries, collectRegions_ok classification_df kv.2.downstream acc hkv]
      show regionsOfEntries classification_df rest
          (foldInsert acc
            (kv.2.downstream.filterMap (first_class classification_df))) = _
      rw [ih _ hrest, hsplit, List.filterMap_append]
      rw [foldInsert, foldInsert, foldInsert, List.foldl_append]

theorem regionsOfEntries_err (classification_df : List NodeRow) (data : ConnMap) :
    ∀ acc : List String,
      (∃ d ∈ allDownstream data, first_class classification_df d = none) →
      ∃ msg, regionsOfEntries classification_df data acc = Except.error msg := by
  induction data with
  | nil => intro acc h; simp [allDownstream] at h
  | cons kv rest ih =>
      intro acc h
      have hsplit : allDownstream (kv :: rest) =
          kv.2.downstream ++ allDownstream rest := by
        simp [allDownstream]
      rw [hsplit] at h
      cases hres : collectRegions classification_df kv.2.downstream acc with
      | error e =>
          refine ⟨e, ?_⟩
          rw [regionsOfEntries, hres]
      | ok acc' =>
          rcases h with ⟨d, hd, hdn⟩
          rcases List.mem_append.mp hd with hd' | hd'
          · rcases collectRegions_err classification_df kv.2.downstream acc
                ⟨d, hd', hdn⟩ with ⟨msg, hmsg⟩
            rw [hres] at hmsg
            exact absurd hmsg (by simp)
          · rcases ih acc' ⟨d, hd', hdn⟩ with ⟨msg, hmsg⟩
            refine ⟨msg, ?_⟩
            rw [regionsOfEntries, hres]
            show regionsOfEntries classification_df rest acc' = Except.error msg
            exact hmsg

theorem getD_eq_get {α : Type} (l : List α) (d : α) (i : Nat) (h : i < l.length) :
    l.getD i d = l.get ⟨i, h⟩ := by
  induction l generalizing i with
  | nil => simp at h
  | cons x l ih =>
      cases i with
      | zero => rfl
      | succ i => exact ih i (Nat.lt_of_succ_lt_succ h)

/-! ## Claim theorems -/

/-- C1: for every edge table `E` and node-id list `S`, the map built by
`neuron_connections` has exactly the ids of `S` as keys (ids without
edges get an entry as well), and each key's entry is exactly the three
parallel projections of the edge rows whose `pre_root_id` is that key,
in edge-table row order, so the three lists have equal length, equal to
the number of such rows. -/
theorem neuron_connections_keys_and_rows (E : List EdgeRow) (S : List Int)
    (save name : String) :
    (∀ k : Int,
      (dictGet (neuron_connections E S save name).1 k).isSome = true ↔ k ∈ S) ∧
    (∀ k : Int, k ∈ S →
      dictGet (neuron_connections E S save name).1 k = some (sourceEntry E k)) ∧
    (∀ k : Int,
      (sourceEntry E k).downstream.length =
          (E.filter (fun row => row.pre_root_id == k)).length ∧
      (sourceEntry E k).strength.length =
          (E.filter (fun row => row.pre_root_id == k)).length ∧
      (sourceEntry E k).connection_type.length =
          (E.filter (fun row => row.pre_root_id == k)).length) := by
  have hinit : ∀ k' : Int,
      dictGet (S.foldl (fun m neuron => dictInsert m neuron emptyEntry) []) k' =
        if k' ∈ S then some emptyEntry else none := by
    intro k'
    rw [dictGet_foldl_insert, dictGet_nil]
  have hkeys : ∀ k' : Int,
      (dictGet (S.foldl (fun m neuron => dictInsert m neuron emptyEntry) []) k').isSome
        = true ↔ k' ∈ S := by
    intro k'
    rw [hinit]
    by_cases h : k' ∈ S <;> simp [h]
  have hfold : ∀ k : Int,
      dictGet (neuron_connections E S save name).1 k =
        (dictGet (S.foldl (fun m neuron => dictInsert m neuron emptyEntry) []) k).map
          (fun v => catEntry v (sourceEntry E k)) :=
    fun k => dictGet_edge_foldl E S _ k hkeys
  refine ⟨?_, ?_, ?_⟩
  · intro k
    rw [hfold k, hinit k]
    by_cases h : k ∈ S <;> simp [h]
  · intro k hk
    rw [hfold k, hinit k, if_pos hk]
    simp [catEntry_emptyEntry_left]
  · intro k
    refine ⟨?_, ?_, ?_⟩ <;> simp [sourceEntry]

theorem neuron_connections_keys_and_rows_witness :
    ((1 : Int) ∈ [(1 : Int), 2]) ∧
    dictGet (neuron_connections
        [EdgeRow.mk 1 2 5 "ACh", EdgeRow.mk 1 3 2 "GABA", EdgeRow.mk 9 1 4 "ACh"]
        [1, 2] "y" "t").1 1 =
      some (sourceEntry
        [EdgeRow.mk 1 2 5 "ACh", EdgeRow.mk 1 3 2 "GABA", EdgeRow.mk 9 1 4 "ACh"] 1) :=
  ⟨by decide,
   (neuron_connections_keys_and_rows
      [EdgeRow.mk 1 2 5 "ACh", EdgeRow.mk 1 3 2 "GABA", EdgeRow.mk 9 1 4 "ACh"]
      [1, 2] "y" "t").2.1 1 (by decide)⟩

/-- C2: `olfactory_neruons` returns exactly the ids of the rows whose
`class` field equals the queried category, once per matching row, in
table row order; with no matching row the result is the empty list. -/
theorem olfactory_neruons_filter (T : List NodeRow) (c : String) :
    olfactory_neruons T c =
      (T.filter (fun r => r.«class» == c)).map NodeRow.root_id ∧
    ((∀ r ∈ T, ¬ r.«class» = c) → olfactory_neruons T c = []) := by
  have hmain : olfactory_neruons T c =
      (T.filter (fun r => r.«class» == c)).map NodeRow.root_id := by
    rw [olfactory_neruons, foldl_append_filter c T [], List.nil_append]
  refine ⟨hmain, ?_⟩
  intro h
  rw [hmain]
  have : T.filter (fun r => r.«class» == c) = [] := by
    rw [List.filter_eq_nil_iff]
    intro r hr
    simpa using h r hr
  rw [this]
  rfl

theorem olfactory_neruons_filter_witness :
    (∀ r ∈ [NodeRow.mk 1 "A", NodeRow.mk 2 "B"], ¬ r.«class» = "C") ∧
    olfactory_neruons [NodeRow.mk 1 "A", NodeRow.mk 2 "B"] "C" = [] :=
  ⟨by decide,
   (olfactory_neruons_filter [NodeRow.mk 1 "A", NodeRow.mk 2 "B"] "C").2 (by decide)⟩

/-- C3: `connectivity_matrix` is a pure function of its inputs (hence
deterministic for a fixed map iteration order), and the value of cell
`(i, j)` is the weight of the **last** edge of upstream entry `i` whose
target lands in column `j` (`qualStrengths` lists those weights in edge
order); earlier weights for the same cell are overwritten, not summed. -/
theorem connectivity_matrix_last_write_wins (A B : ConnMap) (hA : mapWF A)
    (i j : Nat) (hi : i < A.length) :
    ∃ M, connectivity_matrix [A, B] 0 = Except.ok M ∧
      getCell M i j =
        (qualStrengths (B.map Prod.fst) ((A.get ⟨i, hi⟩).2.downstream)
            ((A.get ⟨i, hi⟩).2.strength) j).getLastD 0 := by
  refine ⟨_, connectivity_matrix_pair A B, ?_⟩
  have h := getCell_fillMatrix (B.map Prod.fst) A 0 (zeros A.length B.length) i j hi
    hA (by rw [length_zeros]; simpa using hi)
    (fun i' hi' => by
      rw [rowlen_zeros A.length B.length i' (by rwa [length_zeros] at hi'),
        List.length_map])
  rw [Nat.zero_add] at h
  rw [h, getCell_zeros]

theorem connectivity_matrix_last_write_wins_witness :
    mapWF [(PyKey.str "1", ConnEntry.mk [7, 7] [5, 9] ["a", "a"])] ∧
    ∃ M, connectivity_matrix
        [[(PyKey.str "1", ConnEntry.mk [7, 7] [5, 9] ["a", "a"])],
         [(PyKey.str "7", emptyEntry)]] 0 = Except.ok M ∧
      getCell M 0 0 = 9 := by
  have hwf : mapWF [(PyKey.str "1", ConnEntry.mk [7, 7] [5, 9] ["a", "a"])] := by
    intro kv hkv
    rw [List.mem_singleton.mp hkv]
    rfl
  refine ⟨hwf, ?_⟩
  rcases connectivity_matrix_last_write_wins
      [(PyKey.str "1", ConnEntry.mk [7, 7] [5, 9] ["a", "a"])]
      [(PyKey.str "7", emptyEntry)] hwf 0 0 (by decide) with ⟨M, hM, hcell⟩
  refine ⟨M, hM, ?_⟩
  rw [hcell]
  decide

/-- C4: for two connectivity maps the result matrix has
`(upstream entries) × (downstream entries)` cells; a cell differs from 0
only through the weight of an edge of its row's entry whose target's
string form occurs among the downstream keys at exactly that column
(first position), and a cell with no such edge stays 0. -/
theorem connectivity_matrix_shape_cells (A B : ConnMap) (hA : mapWF A) :
    ∃ M, connectivity_matrix [A, B] 0 = Except.ok M ∧
      M.length = A.length ∧
      (∀ row ∈ M, row.length = B.length) ∧
      (∀ (i j : Nat) (hi : i < A.length), j < B.length →
        (¬ getCell M i j = 0 →
          ∃ p ∈ ((A.get ⟨i, hi⟩).2.downstream.zip (A.get ⟨i, hi⟩).2.strength),
            pyContains (B.map Prod.fst) (strKey p.1) = true ∧
            pyIndexOf (B.map Prod.fst) (strKey p.1) = j ∧
            getCell M i j = p.2) ∧
        ((∀ p ∈ ((A.get ⟨i, hi⟩).2.downstream.zip (A.get ⟨i, hi⟩).2.strength),
            ¬ (pyContains (B.map Prod.fst) (strKey p.1) = true ∧
               pyIndexOf (B.map Prod.fst) (strKey p.1) = j)) →
          getCell M i j = 0)) := by
  refine ⟨_, connectivity_matrix_pair A B, ?_, ?_, ?_⟩
  · rw [length_fillMatrix, length_zeros]
  · intro row hrow
    rcases List.getElem_of_mem hrow with ⟨i, hlt, hrow_eq⟩
    have hltA : i < A.length := by
      have h2 := hlt
      rw [length_fillMatrix, length_zeros] at h2
      exact h2
    have hgd : (fillMatrix (B.map Prod.fst) 0 A (zeros A.length B.length)).getD i []
        = row := by
      rw [getD_eq_get _ [] i hlt]
      exact hrow_eq
    rw [← hgd, rowlen_fillMatrix, rowlen_zeros A.length B.length i hltA]
  · intro i j hi hj
    have h := getCell_fillMatrix (B.map Prod.fst) A 0 (zeros A.length B.length) i j hi
      hA (by rw [length_zeros]; simpa using hi)
      (fun i' hi' => by
        rw [rowlen_zeros A.length B.length i' (by rwa [length_zeros] at hi'),
          List.length_map])
    rw [Nat.zero_add, getCell_zeros] at h
    constructor
    · intro hne
      have hqn : ¬ (qualStrengths (B.map Prod.fst) ((A.get ⟨i, hi⟩).2.downstream)
          ((A.get ⟨i, hi⟩).2.strength) j) = [] := by
        intro h0
        rw [h, h0] at hne
        exact hne rfl
      have hmem := getLastD_mem _ 0 hqn
      rw [qualStrengths] at hmem
      rcases List.mem_map.mp hmem with ⟨p, hpfilter, hpsnd⟩
      rcases List.mem_filter.mp hpfilter with ⟨hpzip, hpred⟩
      have hpred' : pyContains (B.map Prod.fst) (strKey p.1) = true ∧
          pyIndexOf (B.map Prod.fst) (strKey p.1) = j := by
        simpa using hpred
      refine ⟨p, hpzip, hpred'.1, hpred'.2, ?_⟩
      rw [h, qualStrengths, ← hpsnd]
    · intro hall
      have hq : qualStrengths (B.map Prod.fst) ((A.get ⟨i, hi⟩).2.downstream)
          ((A.get ⟨i, hi⟩).2.strength) j = [] := by
        rw [qualStrengths, List.map_eq_nil_iff, List.filter_eq_nil_iff]
        intro p hp hpred
        have hpred' : pyContains (B.map Prod.fst) (strKey p.1) = true ∧
            pyIndexOf (B.map Prod.fst) (strKey p.1) = j := by
          simpa using hpred
        exact hall p hp hpred' 
      rw [h, hq]
      rfl

theorem connectivity_matrix_shape_cells_witness :
    mapWF [(PyKey.str "1", ConnEntry.mk [2] [5] ["a"])] ∧
    ∃ M, connectivity_matrix [[(PyKey.str "1", ConnEntry.mk [2] [5] ["a"])],
        [(PyKey.str "2", emptyEntry)]] 0 = Except.ok M ∧
      M.length = 1 := by
  have hwf : mapWF [(PyKey.str "1", ConnEntry.mk [2] [5] ["a"])] := by
    intro kv hkv
    rw [List.mem_singleton.mp hkv]
    rfl
  rcases connectivity_matrix_shape_cells
      [(PyKey.str "1", ConnEntry.mk [2] [5] ["a"])]
      [(PyKey.str "2", emptyEntry)] hwf with ⟨M, hM, hlen, _⟩
  exact ⟨hwf, M, hM, hlen⟩

/-- C5: dividing by the global maximum scales a nonnegative matrix with
a nonzero cell so that the maximum cell becomes exactly 1 and every
cell is the original value divided by the maximum (so in `[0, 1]`);
on an all-zero matrix the unguarded division `0 / 0` silently fills the
matrix with `nan` instead of raising. -/
theorem normalize_max_one_and_nan (M : List (List Int)) :
    ((∀ row ∈ M, ∀ x ∈ row, 0 ≤ x) → (∃ row ∈ M, ∃ x ∈ row, ¬ x = 0) →
      (∃ row ∈ normalize_matrix M, PyFloat.val 1 ∈ row) ∧
      (∀ row ∈ normalize_matrix M, ∀ y ∈ row,
        ∃ q : ℚ, y = PyFloat.val q ∧ 0 ≤ q ∧ q ≤ 1) ∧
      normalize_matrix M =
        M.map (fun row => row.map
          (fun x : Int => PyFloat.val ((x : ℚ) / ((matMax M : Int) : ℚ))))) ∧
    ((∀ row ∈ M, ∀ x ∈ row, x = 0) →
      ∀ row ∈ normalize_matrix M, ∀ y ∈ row, y = PyFloat.nan) := by
  constructor
  · intro hnn hex
    rcases hex with ⟨row0, hrow0, x0, hx0, hx0ne⟩
    have hx0flat : x0 ∈ M.flatten := List.mem_flatten.mpr ⟨row0, hrow0, hx0⟩
    have hx0pos : 0 < x0 := lt_of_le_of_ne (hnn row0 hrow0 x0 hx0) (Ne.symm hx0ne)
    have hmaxpos : 0 < matMax M := lt_of_lt_of_le hx0pos (le_matMax M x0 hx0flat)
    have hmaxq : ¬ ((matMax M : Int) : ℚ) = 0 := by
      intro hq
      rw [Int.cast_eq_zero] at hq
      omega
    refine ⟨?_, ?_, ?_⟩
    · have hmm : matMax M ∈ M.flatten := matMax_mem M (by
        intro hnil
        rw [hnil] at hx0flat
        simp at hx0flat)
      rcases List.mem_flatten.mp hmm with ⟨rowm, hrowm, hmmem⟩
      refine ⟨rowm.map (fun x : Int => pyDiv (x : ℚ) ((matMax M : Int) : ℚ)), ?_, ?_⟩
      · rw [normalize_matrix]
        exact List.mem_map_of_mem _ hrowm
      · have hone : pyDiv ((matMax M : Int) : ℚ) ((matMax M : Int) : ℚ) =
            PyFloat.val 1 := by
          rw [pyDiv, if_pos hmaxq, div_self hmaxq]
        rw [← hone]
        exact List.mem_map_of_mem _ hmmem
    · intro row hrow y hy
      rw [normalize_matrix] at hrow
      rcases List.mem_map.mp hrow with ⟨row', hrow', hroweq⟩
      rw [← hroweq] at hy
      rcases List.mem_map.mp hy with ⟨x, hx, hxeq⟩
      refine ⟨(x : ℚ) / ((matMax M : Int) : ℚ), ?_, ?_, ?_⟩
      · rw [← hxeq, pyDiv, if_pos hmaxq]
      · apply div_nonneg
        · exact_mod_cast hnn row' hrow' x hx
        · exact_mod_cast le_of_lt hmaxpos
      · rw [div_le_one (by exact_mod_cast hmaxpos)]
        exact_mod_cast le_matMax M x (List.mem_flatten.mpr ⟨row', hrow', hx⟩)
    · rw [normalize_matrix]
      have hfun : (fun x : Int => pyDiv (x : ℚ) ((matMax M : Int) : ℚ)) =
          fun x : Int => PyFloat.val ((x : ℚ) / ((matMax M : Int) : ℚ)) :=
        funext (fun x => by rw [pyDiv, if_pos hmaxq])
      rw [hfun]
  · intro hz row hrow y hy
    have hmax0 : matMax M = 0 := by
      rw [matMax]
      cases hm : M.flatten with
      | nil => rfl
      | cons x xs =>
          show xs.foldl max x = 0
          have hall : ∀ z ∈ M.flatten, z = 0 := by
            intro z hzf
            rcases List.mem_flatten.mp hzf with ⟨r, hr, hzr⟩
            exact hz r hr z hzr
          rcases foldl_max_mem xs x with hc | hc
          · rw [hc]
            exact hall x (by rw [hm]; exact List.mem_cons_self x xs)
          · exact hall _ (by rw [hm]; exact List.mem_cons_of_mem x hc)
    rw [normalize_matrix] at hrow
    rcases List.mem_map.mp hrow with ⟨row', hrow', hroweq⟩
    rw [← hroweq] at hy
    rcases List.mem_map.mp hy with ⟨x, hx, hxeq⟩
    have hx0 : x = 0 := hz row' hrow' x hx
    rw [← hxeq, hx0, hmax0]
    simp [pyDiv]

theorem normalize_max_one_and_nan_witness :
    ((∀ row ∈ ([[0, 2], [4, 0]] : List (List Int)), ∀ x ∈ row, 0 ≤ x) ∧
     (∃ row ∈ ([[0, 2], [4, 0]] : List (List Int)), ∃ x ∈ row, ¬ x = 0) ∧
     (∃ row ∈ normalize_matrix [[0, 2], [4, 0]], PyFloat.val 1 ∈ row)) ∧
    ((∀ row ∈ ([[0, 0]] : List (List Int)), ∀ x ∈ row, x = 0) ∧
     ∀ row ∈ normalize_matrix [[0, 0]], ∀ y ∈ row, y = PyFloat.nan) := by
  refine ⟨⟨by decide, by decide, ?_⟩, by decide, ?_⟩
  · exact ((normalize_max_one_and_nan [[0, 2], [4, 0]]).1 (by decide) (by decide)).1
  · exact (normalize_max_one_and_nan [[0, 0]]).2 (by decide)

/-- C6: persisting a connectivity dictionary with `save_data` and
reloading the written JSON with `load_json` yields a dictionary with the
same keys converted to strings and, per key, the same three parallel
lists. -/
theorem save_load_round_trip (m : List (Int × ConnEntry)) (name : String) :
    load_json (save_data m name).2 = some (m.map (fun p => (toString p.1, p.2))) :=
  decodeFields_encode m

/-- C7: `list_down_stream_regions` returns the distinct classes of the
downstream ids referenced in the dictionary, in first-seen order, each
resolved through the first classification row with that `root_id`; it
fails with an uncaught lookup fault as soon as a referenced downstream
id has no row in the classification table. -/
theorem list_down_stream_regions_spec (data : ConnMap)
    (classification_df : List NodeRow) :
    ((∀ d ∈ allDownstream data, ∃ r ∈ classification_df, r.root_id = d) →
      list_down_stream_regions data classification_df =
        Except.ok (foldInsert []
          ((allDownstream data).filterMap (first_class classification_df)))) ∧
    ((∃ d ∈ allDownstream data, ∀ r ∈ classification_df, ¬ r.root_id = d) →
      ∃ msg, list_down_stream_regions data classification_df =
        Except.error msg) := by
  constructor
  · intro h
    rw [list_down_stream_regions]
    exact regionsOfEntries_ok classification_df data []
      (fun d hd => first_class_isSome classification_df d (h d hd))
  · rintro ⟨d, hd, hnone⟩
    have hfc : first_class classification_df d = none := by
      rw [first_class, List.find?_eq_none.mpr (fun r hr => by simpa using hnone r hr)]
      rfl
    rw [list_down_stream_regions]
    exact regionsOfEntries_err classification_df data [] ⟨d, hd, hfc⟩

theorem list_down_stream_regions_spec_witness :
    ((∀ d ∈ allDownstream
          [(PyKey.str "1", ConnEntry.mk [2, 3, 2] [1, 1, 1] ["a", "a", "a"])],
        ∃ r ∈ [NodeRow.mk 2 "A", NodeRow.mk 3 "B"], r.root_id = d) ∧
      list_down_stream_regions
          [(PyKey.str "1", ConnEntry.mk [2, 3, 2] [1, 1, 1] ["a", "a", "a"])]
          [NodeRow.mk 2 "A", NodeRow.mk 3 "B"] =
        Except.ok (foldInsert []
          ((allDownstream
              [(PyKey.str "1", ConnEntry.mk [2, 3, 2] [1, 1, 1] ["a", "a", "a"])]).filterMap
            (first_class [NodeRow.mk 2 "A", NodeRow.mk 3 "B"])))) ∧
    ((∃ d ∈ allDownstream [(PyKey.str "9", ConnEntry.mk [5] [1] ["a"])],
        ∀ r ∈ [NodeRow.mk 2 "A"], ¬ r.root_id = d) ∧
      ∃ msg, list_down_stream_regions [(PyKey.str "9", ConnEntry.mk [5] [1] ["a"])]
          [NodeRow.mk 2 "A"] = Except.error msg) := by
  refine ⟨⟨by decide, ?_⟩, by decide, ?_⟩
  · exact (list_down_stream_regions_spec
      [(PyKey.str "1", ConnEntry.mk [2, 3, 2] [1, 1, 1] ["a", "a", "a"])]
      [NodeRow.mk 2 "A", NodeRow.mk 3 "B"]).1 (by decide)
  · exact (list_down_stream_regions_spec
      [(PyKey.str "9", ConnEntry.mk [5] [1] ["a"])]
      [NodeRow.mk 2 "A"]).2 (by decide)

/-- C8: on well-formed connectivity dictionaries and an axis flag of 0
or 1, `connectivity_matrix` fails exactly when the input list does not
hold exactly two dictionaries; the same dictionary twice is accepted
and produces a (within-area) matrix. -/
theorem connectivity_matrix_arity (data_frames : List ConnMap)
    (upstream_axis : Nat) (haxis : upstream_axis ≤ 1)
    (hwf : ∀ m ∈ data_frames, mapWF m) :
    ((∃ e, connectivity_matrix data_frames upstream_axis = Except.error e) ↔
      ¬ data_frames.length = 2) ∧
    (∀ d : ConnMap, mapWF d →
      ∃ M, connectivity_matrix [d, d] upstream_axis = Except.ok M) := by
  constructor
  · constructor
    · rintro ⟨e, he⟩ hlen
      rw [connectivity_matrix, if_neg (fun hh => hh hlen)] at he
      exact absurd he (by simp)
    · intro hlen
      exact ⟨_, by rw [connectivity_matrix, if_pos hlen]⟩
  · intro d _
    exact ⟨_, by rw [connectivity_matrix, if_neg (fun hh => hh rfl)]⟩

theorem connectivity_matrix_arity_witness :
    ((0 : Nat) ≤ 1 ∧ (∀ m ∈ ([] : List ConnMap), mapWF m)) ∧
    ((∃ e, connectivity_matrix ([] : List ConnMap) 0 = Except.error e) ↔
      ¬ ([] : List ConnMap).length = 2) :=
  ⟨⟨by decide, fun m hm => absurd hm (List.not_mem_nil m)⟩,
   (connectivity_matrix_arity [] 0 (by decide)
      (fun m hm => absurd hm (List.not_mem_nil m))).1⟩

/-- C9: when both dictionaries still have integer keys (as built by
`neuron_connections`, without a JSON round trip), every membership test
compares a string against integer keys and fails, so every edge is
skipped and the result is the all-zero matrix. -/
theorem connectivity_matrix_int_keys_all_zero (A B : ConnMap)
    (hA : ∀ kv ∈ A, ∃ n : Int, kv.1 = PyKey.int n)
    (hB : ∀ kv ∈ B, ∃ n : Int, kv.1 = PyKey.int n) :
    connectivity_matrix [A, B] 0 = Except.ok (zeros A.length B.length) := by
  have hks : ∀ k ∈ B.map Prod.fst, ∃ n : Int, k = PyKey.int n := by
    intro k hk
    rcases List.mem_map.mp hk with ⟨kv, hkv, hkveq⟩
    rw [← hkveq]
    exact hB kv hkv
  rw [connectivity_matrix_pair,
    fillMatrix_no_hit (B.map Prod.fst) (fun d => pyContains_int_keys _ hks d) A 0 _]

theorem connectivity_matrix_int_keys_all_zero_witness :
    (∀ kv ∈ [(PyKey.int 1, ConnEntry.mk [7] [5] ["a"])],
      ∃ n : Int, kv.1 = PyKey.int n) ∧
    connectivity_matrix [[(PyKey.int 1, ConnEntry.mk [7] [5] ["a"])],
        [(PyKey.int 7, emptyEntry)]] 0 =
      Except.ok (zeros 1 1) := by
  refine ⟨?_, ?_⟩
  · intro kv hkv
    rw [List.mem_singleton.mp hkv]
    exact ⟨1, rfl⟩
  · exact connectivity_matrix_int_keys_all_zero
      [(PyKey.int 1, ConnEntry.mk [7] [5] ["a"])] [(PyKey.int 7, emptyEntry)]
      (fun kv hkv => by rw [List.mem_singleton.mp hkv]; exact ⟨1, rfl⟩)
      (fun kv hkv => by rw [List.mem_singleton.mp hkv]; exact ⟨7, rfl⟩)

/-- C10: `neuron_connections` writes `<name>.json` for every truthy
(non-empty) `save` string — including the string `"n"` — and skips the
write only for a falsy (empty) `save`; the returned dictionary does not
depend on `save`. -/
theorem neuron_connections_save_flag (E : List EdgeRow) (S : List Int)
    (name : String) :
    (∀ save : String, ¬ save = "" →
      (neuron_connections E S save name).2 =
        some (save_data (neuron_connections E S save name).1 name)) ∧
    (neuron_connections E S "" name).2 = none ∧
    (neuron_connections E S ("n") name).2 =
      some (save_data (neuron_connections E S ("n") name).1 name) ∧
    (∀ s₁ s₂ : String, (neuron_connections E S s₁ name).1 =
      (neuron_connections E S s₂ name).1) := by
  refine ⟨?_, rfl, rfl, fun s₁ s₂ => rfl⟩
  intro save h
  have ht : pyTruthy save = true := by
    rw [pyTruthy]
    exact decide_eq_true h
  simp [neuron_connections, ht]

theorem neuron_connections_save_flag_witness :
    ¬ ("y" : String) = "" ∧
    (neuron_connections ([] : List EdgeRow) ([] : List Int) "y" "t").2 =
      some (save_data
        (neuron_connections ([] : List EdgeRow) ([] : List Int) "y" "t").1 "t") :=
  ⟨by decide,
   (neuron_connections_save_flag ([] : List EdgeRow) ([] : List Int) "t").1
      "y" (by decide)⟩
